import Mathlib

/-!
Verification development for the address/range utility module
(`ciscoconfparse/ccp_util.py`): the `IPv4Obj`/`IPv6Obj` dual
address/network value types and the `CiscoRange` textual range
expander/compressor.

The Python classes are embedded shallowly:

* An `IPv4Obj` stores `ip_object` (the un-masked host address) and a
  `network_object` carrying the prefix length.  We model this state as a
  pair `(host, prefixlen)` of naturals; every derived view
  (`as_decimal`, `as_decimal_network`, `numhosts`, ...) is a pure
  function of that pair, exactly as in the source where they are
  properties recomputed on demand.  `IPv6Obj` is the same with the
  128-bit bounds.
* Python exceptions are modelled with `Except PyErr`; an `assert`
  failure is `PyErr.assertFail`, a raised `ValueError` is
  `PyErr.valueError`, a raised `NotImplementedError` is `PyErr.notImpl`.
* The duck-typed comparison methods (`__gt__`/`__lt__`/`__contains__`
  read `prefixlen`, `as_decimal_network`, `as_decimal`, `numhosts`,
  `network_object.prefixlen` off the *argument* via `getattr`, raising
  `ValueError` from the surrounding `try/except` only when an attribute
  is missing) are modelled with a `PyVal` sum type: the attribute reads
  succeed on both `IPv4Obj` and `IPv6Obj` values and fail on plain
  ints/strings.
-/

/-- Python exception classes that the modelled code can raise. -/
inductive PyErr where
  | assertFail (msg : String)
  | valueError (msg : String)
  | notImpl (msg : String)
deriving Repr, DecidableEq

/-- Model of `IPv4Obj`: `host` is the numeric value of `ip_object`
(host bits retained, never masked) and `prefixlen` the mask length of
`network_object`.  Source: `class IPv4Obj`, `ccp_util.py`. -/
structure IPv4Obj where
  host : Nat
  prefixlen : Nat
deriving Repr, DecidableEq

namespace IPv4Obj

/-- `IPv4Obj.as_decimal`: the IP address as a decimal integer
(sum of the dotted octets weighted by 256^idx = the host value). -/
def as_decimal (a : IPv4Obj) : Nat := a.host

/-- `IPv4Obj.as_decimal_network`: the network address as a decimal
integer, i.e. the host value with the low `32 - prefixlen` bits
cleared (the source reads it off `str(self.network)`). -/
def as_decimal_network (a : IPv4Obj) : Nat :=
  a.host - a.host % 2 ^ (32 - a.prefixlen)

/-- `IPv4Obj.numhosts` (Python 3 branch): `2 ** (32 - prefixlen)`. -/
def numhosts (a : IPv4Obj) : Nat := 2 ^ (32 - a.prefixlen)

/-- `IPv4Obj.__eq__`: numeric comparison of `as_decimal` and
`prefixlen`. -/
def eqb (a b : IPv4Obj) : Bool :=
  a.as_decimal = b.as_decimal ∧ a.prefixlen = b.prefixlen

/-- `IPv4Obj.__gt__` branch structure: same network and prefixlen →
compare host values; same network → compare prefix lengths; otherwise
compare network numbers. -/
def gtb (a b : IPv4Obj) : Bool :=
  if a.as_decimal_network = b.as_decimal_network ∧ a.prefixlen = b.prefixlen then
    a.as_decimal > b.as_decimal
  else if a.as_decimal_network = b.as_decimal_network then
    a.prefixlen > b.prefixlen
  else
    a.as_decimal_network > b.as_decimal_network

/-- `IPv4Obj.__lt__` branch structure (mirror of `__gt__`). -/
def ltb (a b : IPv4Obj) : Bool :=
  if a.as_decimal_network = b.as_decimal_network ∧ a.prefixlen = b.prefixlen then
    a.as_decimal < b.as_decimal
  else if a.as_decimal_network = b.as_decimal_network then
    a.prefixlen < b.prefixlen
  else
    a.as_decimal_network < b.as_decimal_network

/-- `IPv4Obj.__add__`: add an integer to the host value, assert the
total stays in `[0, 4294967295]`, rebuild from the integer and restore
the original prefix length. -/
def add (a : IPv4Obj) (n : Int) : Except PyErr IPv4Obj :=
  let total : Int := (a.as_decimal : Int) + n
  if total > 4294967295 then .error (.assertFail "Max IPv4 integer exceeded")
  else if total < 0 then .error (.assertFail "Min IPv4 integer exceeded")
  else .ok { host := total.toNat, prefixlen := a.prefixlen }

/-- `IPv4Obj.__sub__`: subtract an integer from the host value with the
same range asserts and prefix-length restoration. -/
def sub (a : IPv4Obj) (n : Int) : Except PyErr IPv4Obj :=
  let total : Int := (a.as_decimal : Int) - n
  if total > 4294967295 then .error (.assertFail "Max IPv4 integer exceeded")
  else if total < 0 then .error (.assertFail "Min IPv4 integer exceeded")
  else .ok { host := total.toNat, prefixlen := a.prefixlen }

/-- `IPv4Obj.__contains__` restricted to an `IPv4Obj` argument:
prefixlen 0 → `True`; longer mask than the argument → `False`;
otherwise span comparison on network decimals and host counts. -/
def containsB (s o : IPv4Obj) : Bool :=
  if s.prefixlen = 0 then true
  else if s.prefixlen > o.prefixlen then false
  else
    (s.as_decimal_network ≤ o.as_decimal_network) ∧
      (s.as_decimal_network + s.numhosts - 1 ≥ o.as_decimal_network + o.numhosts - 1)

/-- `IPv4Obj.broadcast` (Python 3 branch:
`network_object.broadcast_address`, i.e. the numeric top of the
network span), wrapped in `Except` to contrast with the IPv6 variant
which raises. -/
def broadcast (a : IPv4Obj) : Except PyErr Nat :=
  .ok (a.as_decimal_network + a.numhosts - 1)

end IPv4Obj

/-- Model of `IPv6Obj`: same state as `IPv4Obj` with 128-bit bounds. -/
structure IPv6Obj where
  host : Nat
  prefixlen : Nat
deriving Repr, DecidableEq

namespace IPv6Obj

/-- `IPv6Obj.as_decimal`. -/
def as_decimal (a : IPv6Obj) : Nat := a.host

/-- `IPv6Obj.as_decimal_network`. -/
def as_decimal_network (a : IPv6Obj) : Nat :=
  a.host - a.host % 2 ^ (128 - a.prefixlen)

/-- `IPv6Obj.numhosts` (Python 3 branch): `2 ** (128 - prefixlen)`. -/
def numhosts (a : IPv6Obj) : Nat := 2 ^ (128 - a.prefixlen)

/-- Maximum IPv6 integer, as hard-coded in `IPv6Obj.__add__`/`__sub__`. -/
def maxInt : Nat := 340282366920938463463374607431768211455

/-- `IPv6Obj.__add__`. -/
def add (a : IPv6Obj) (n : Int) : Except PyErr IPv6Obj :=
  let total : Int := (a.as_decimal : Int) + n
  if total > (maxInt : Int) then .error (.assertFail "Max IPv6 integer exceeded")
  else if total < 0 then .error (.assertFail "Min IPv6 integer exceeded")
  else .ok { host := total.toNat, prefixlen := a.prefixlen }

/-- `IPv6Obj.__sub__`. -/
def sub (a : IPv6Obj) (n : Int) : Except PyErr IPv6Obj :=
  let total : Int := (a.as_decimal : Int) - n
  if total > (maxInt : Int) then .error (.assertFail "Max IPv6 integer exceeded")
  else if total < 0 then .error (.assertFail "Min IPv6 integer exceeded")
  else .ok { host := total.toNat, prefixlen := a.prefixlen }

/-- `IPv6Obj.broadcast`: unconditionally
`raise NotImplementedError("IPv6 does not have broadcasts")`. -/
def broadcast (_ : IPv6Obj) : Except PyErr Nat :=
  .error (.notImpl "IPv6 does not have broadcasts")

end IPv6Obj

/-- A Python value handed to one of the duck-typed comparison methods:
an `IPv4Obj`, an `IPv6Obj`, or something without the address attributes
(a plain int or string). -/
inductive PyVal where
  | v4 (a : IPv4Obj)
  | v6 (a : IPv6Obj)
  | intv (n : Int)
  | strv (s : String)
deriving Repr, DecidableEq

namespace PyVal

/-- The attribute reads performed by `__gt__`/`__lt__`:
`(prefixlen, as_decimal_network, as_decimal)`.  `getattr` succeeds on
both address classes (they expose identical attribute names) and
raises `AttributeError` — surfaced as `ValueError` by the enclosing
`try/except` — on anything else. -/
def cmpAttrs : PyVal → Option (Nat × Nat × Nat)
  | .v4 a => some (a.prefixlen, a.as_decimal_network, a.as_decimal)
  | .v6 a => some (a.prefixlen, a.as_decimal_network, a.as_decimal)
  | .intv _ => none
  | .strv _ => none

/-- The attribute reads performed by `__contains__` on its argument:
`(network_object.prefixlen, as_decimal_network, numhosts)`. -/
def containAttrs : PyVal → Option (Nat × Nat × Nat)
  | .v4 a => some (a.prefixlen, a.as_decimal_network, a.numhosts)
  | .v6 a => some (a.prefixlen, a.as_decimal_network, a.numhosts)
  | .intv _ => none
  | .strv _ => none

end PyVal

/-- The shared three-key comparison of `__gt__` on the numeric triples
`(as_decimal_network, prefixlen, as_decimal)` of both operands. -/
def gtKeys (sn sp sd vn vp vd : Nat) : Bool :=
  if sn = vn ∧ sp = vp then sd > vd
  else if sn = vn then sp > vp
  else sn > vn

/-- The shared three-key comparison of `__lt__`. -/
def ltKeys (sn sp sd vn vp vd : Nat) : Bool :=
  if sn = vn ∧ sp = vp then sd < vd
  else if sn = vn then sp < vp
  else sn < vn

namespace IPv4Obj

/-- `IPv4Obj.__gt__` on an arbitrary Python value: reads the three
numeric attributes off `val` and compares; raises `ValueError` only
when an attribute read fails. -/
def gtVal (s : IPv4Obj) (val : PyVal) : Except PyErr Bool :=
  match val.cmpAttrs with
  | some (vp, vn, vd) =>
      .ok (gtKeys s.as_decimal_network s.prefixlen s.as_decimal vn vp vd)
  | none => .error (.valueError "cannot compare itself to val")

/-- `IPv4Obj.__lt__` on an arbitrary Python value. -/
def ltVal (s : IPv4Obj) (val : PyVal) : Except PyErr Bool :=
  match val.cmpAttrs with
  | some (vp, vn, vd) =>
      .ok (ltKeys s.as_decimal_network s.prefixlen s.as_decimal vn vp vd)
  | none => .error (.valueError "cannot compare itself to val")

/-- `IPv4Obj.__contains__` on an arbitrary Python value. -/
def containsVal (s : IPv4Obj) (val : PyVal) : Except PyErr Bool :=
  if s.prefixlen = 0 then .ok true
  else
    match val.containAttrs with
    | some (vp, vn, vh) =>
        if s.prefixlen > vp then .ok false
        else
          .ok ((s.as_decimal_network ≤ vn) ∧
            (s.as_decimal_network + s.numhosts - 1 ≥ vn + vh - 1))
    | none => .error (.valueError "could not check containment")

end IPv4Obj

namespace IPv6Obj

/-- `IPv6Obj.__gt__` on an arbitrary Python value. -/
def gtVal (s : IPv6Obj) (val : PyVal) : Except PyErr Bool :=
  match val.cmpAttrs with
  | some (vp, vn, vd) =>
      .ok (gtKeys s.as_decimal_network s.prefixlen s.as_decimal vn vp vd)
  | none => .error (.valueError "cannot compare itself to val")

/-- `IPv6Obj.__lt__` on an arbitrary Python value. -/
def ltVal (s : IPv6Obj) (val : PyVal) : Except PyErr Bool :=
  match val.cmpAttrs with
  | some (vp, vn, vd) =>
      .ok (ltKeys s.as_decimal_network s.prefixlen s.as_decimal vn vp vd)
  | none => .error (.valueError "cannot compare itself to val")

/-- `IPv6Obj.__contains__` on an arbitrary Python value. -/
def containsVal (s : IPv6Obj) (val : PyVal) : Except PyErr Bool :=
  if s.prefixlen = 0 then .ok true
  else
    match val.containAttrs with
    | some (vp, vn, vh) =>
        if s.prefixlen > vp then .ok false
        else
          .ok ((s.as_decimal_network ≤ vn) ∧
            (s.as_decimal_network + s.numhosts - 1 ≥ vn + vh - 1))
    | none => .error (.valueError "could not check containment")

end IPv6Obj

/-!
## CPython `set` model (int elements)

`CiscoRange._parse_dash_range` returns `list(set(retval))`, so the
order of the expanded items is CPython's hash-set iteration order:
table slots in ascending index order.  We model the int-key set of
`Objects/setobject.c`: `hash(n) = n % (2^61 - 1)` for nonnegative `n`;
the table starts at size 8; an insert probes slot `hash & mask` first,
then — whenever `i + LINEAR_PROBES <= mask`, with `LINEAR_PROBES = 9` —
the nine consecutive slots `i+1 .. i+9`, then applies
`perturb >>= 5; i = i*5 + 1 + perturb & mask` and repeats; after a new
key lands, the table grows to the smallest power of two strictly above
`4*used` (or `2*used` past 50000) once `fill*5 >= mask*3`, re-inserting
the old keys in slot order.  The table size is always a power of two,
so `i & mask` is written `i % size` and `perturb >> 5` is
`perturb / 32`.  A `fuel` parameter bounds the probe walk and the
grow loop; exhaustion yields `none` (it is never hit on the inputs the
claims touch, and every theorem is conditional on a `some` result).
-/

/-- CPython `hash` of a nonnegative int on a 64-bit build. -/
def pyHash (n : Nat) : Nat := n % (2 ^ 61 - 1)

/-- Read table slot `j` (`none` = empty slot or out of range). -/
def tget (t : List (Option Nat)) (j : Nat) : Option Nat :=
  match t.get? j with
  | some v => v
  | none => none

/-- The deterministic slot-probe order of `set_add_entry` /
`set_insert_clean` for a given table size and hash: each block is the
current slot plus its nine linear probes (when they fit under the
mask), followed by the perturbed recurrence. -/
def probeBlocks (size : Nat) : Nat → Nat → Nat → List Nat
  | 0, _, _ => []
  | fuel + 1, i, perturb =>
    (i :: (if i + 10 ≤ size then (List.range 9).map (fun j => i + j + 1) else []))
      ++ probeBlocks size fuel ((i * 5 + 1 + perturb / 32) % size) (perturb / 32)

/-- Probe order for inserting hash `h` into a table of `size` slots. -/
def probeSeq (size h : Nat) : List Nat := probeBlocks size 64 (h % size) h

/-- First probed slot that is empty or already holds `key`. -/
def findSlot (t : List (Option Nat)) (key : Nat) (ps : List Nat) : Option Nat :=
  ps.find? (fun j => decide (tget t j = none ∨ tget t j = some key))

/-- First probed slot that is empty (`set_insert_clean` never compares
keys: it is only used during a resize, when all keys are distinct). -/
def findEmpty (t : List (Option Nat)) (ps : List Nat) : Option Nat :=
  ps.find? (fun j => decide (tget t j = none))

/-- `while (newsize <= minused) newsize <<= 1` starting from
`PySet_MINSIZE = 8`, with fuel. -/
def growSize : Nat → Nat → Nat → Nat
  | 0, newsize, _ => newsize
  | fuel + 1, newsize, minused =>
    if newsize ≤ minused then growSize fuel (newsize * 2) minused else newsize

/-- `set_insert_clean`: drop `key` into the first empty probed slot. -/
def cleanInsert (t : List (Option Nat)) (key : Nat) : Option (List (Option Nat)) :=
  match findEmpty t (probeSeq t.length (pyHash key)) with
  | some j => some (t.set j (some key))
  | none => none

/-- `set_table_resize`: allocate the grown table and re-insert the live
keys in slot order. -/
def setResize (keys : List Nat) (minused : Nat) : Option (List (Option Nat)) :=
  keys.foldlM cleanInsert (List.replicate (growSize 64 8 minused) (none : Option Nat))

/-- A CPython set of ints: the slot table plus the `fill` counter
(equal to the number of live keys, since nothing is ever discarded). -/
structure PySet where
  table : List (Option Nat)
  fill : Nat
deriving Repr, DecidableEq

/-- Iteration order of a set: keys in ascending slot order. -/
def pySetKeys (s : PySet) : List Nat := s.table.filterMap id

/-- `set_add_entry`: no-op when a probed slot already holds `key`;
otherwise write `key` into the first empty probed slot, bump `fill`,
and resize if `fill*5 >= mask*3`. -/
def pySetAdd (s : PySet) (key : Nat) : Option PySet :=
  match findSlot s.table key (probeSeq s.table.length (pyHash key)) with
  | none => none
  | some j =>
    match tget s.table j with
    | some _ => some s
    | none =>
      if (s.fill + 1) * 5 < (s.table.length - 1) * 3 then
        some { table := s.table.set j (some key), fill := s.fill + 1 }
      else
        (setResize ((s.table.set j (some key)).filterMap id)
            (if s.fill + 1 > 50000 then (s.fill + 1) * 2 else (s.fill + 1) * 4)).map
          (fun t2 => { table := t2, fill := s.fill + 1 })

/-- A freshly allocated set: 8 empty slots. -/
def pySetEmpty : PySet := { table := List.replicate 8 none, fill := 0 }

/-- Build a set from a list, inserting left to right. -/
def pySetOfList (l : List Nat) : Option PySet := l.foldlM pySetAdd pySetEmpty

/-- `list(set(l))`: insert every element, then walk the slots. -/
def pyListSet (l : List Nat) : Option (List Nat) := (pySetOfList l).map pySetKeys

/-!
## CiscoRange text parsing

All string work is done on `List Char` (so that everything reduces in
the kernel); `String` appears only at the API boundary.
-/

/-- Python's `\s` class over ASCII (also what `str.strip()` removes). -/
def pyIsSpace (c : Char) : Bool :=
  c = ' ' ∨ c = '\t' ∨ c = '\n' ∨ c = '\r' ∨ c = '\x0b' ∨ c = '\x0c'

/-- `str.split(sep)` for a single-char separator (keeps empty pieces;
`"".split(sep) == [""]`). -/
def splitChar (sep : Char) : List Char → List (List Char)
  | [] => [[]]
  | c :: rest =>
    let r := splitChar sep rest
    if c = sep then [] :: r
    else
      match r with
      | [] => [[c]]
      | h :: t => (c :: h) :: t

/-- `str.strip()`. -/
def pyStrip (cs : List Char) : List Char :=
  ((cs.dropWhile pyIsSpace).reverse.dropWhile pyIsSpace).reverse

/-- Numeric value of a digit string. -/
def digitsVal (cs : List Char) : Nat :=
  cs.foldl (fun a c => a * 10 + (c.toNat - '0'.toNat)) 0

/-- `int(s)` on a stripped string: optional sign then decimal digits;
anything else raises `ValueError` (modelled as `none`). -/
def pyIntChars (cs0 : List Char) : Option Int :=
  let cs := pyStrip cs0
  match cs with
  | '+' :: ds =>
    if ds ≠ [] ∧ ds.all Char.isDigit then some ((digitsVal ds : Nat) : Int) else none
  | '-' :: ds =>
    if ds ≠ [] ∧ ds.all Char.isDigit then some (-((digitsVal ds : Nat) : Int)) else none
  | ds =>
    if ds ≠ [] ∧ ds.all Char.isDigit then some ((digitsVal ds : Nat) : Int) else none

/-- One comma atom of `_parse_dash_range`: `begin, end = atom.split("-")`
when the split has exactly two parts, else `begin = end = atom`;
both sides through `int(·.strip())`. -/
def parseAtomBounds (atom : List Char) : Option (Int × Int) :=
  match splitChar '-' atom with
  | [b, e] => do
    let bi ← pyIntChars b
    let ei ← pyIntChars e
    pure (bi, ei)
  | _ => do
    let v ← pyIntChars atom
    pure (v, v)

/-- The values one atom contributes: `range(begin, end + 1)` guarded by
`assert begin > -1` and `assert end + 1 > begin`. -/
def atomVals (atom : List Char) : Option (List Nat) :=
  match parseAtomBounds atom with
  | none => none
  | some (b, e) =>
    if b > -1 ∧ e + 1 > b then
      some ((List.range (e + 1 - b).toNat).map (fun i => b.toNat + i))
    else none

/-- `_parse_dash_range` before its final `list(set(...))`: the
concatenation of every atom's value list, in atom order. -/
def parseDashRangePre (rtext : List Char) : Option (List Nat) :=
  (((splitChar ',' rtext).mapM atomVals).map List.flatten)

/-- `_parse_dash_range`: expand the atoms, then `list(set(...))`. -/
def parseDashRange (rtext : List Char) : Option (List Nat) :=
  (parseDashRangePre rtext).bind pyListSet

/-!
The anchored pattern `_CISCO_RANGE_STR` is
`^([a-zA-Z\s]*)([\d/]*\d+/)*((\s*\d+\s*-*\s*\d*)*)$`.
Its three groups are deterministic despite the regex engine's
backtracking, because the character classes barely overlap:

* the greedy `[a-zA-Z\s]*` keeps its maximal run — giving spaces back
  cannot help, since the slot group cannot start with a space and the
  atom group accepts a leading-space remainder exactly when it accepts
  the remainder without it;
* the starred slot group consumes the leading digit/slash run up to its
  last `/` that is directly preceded by a digit (each repetition ends
  in `digit /`, and `[\d/]*` lets one repetition swallow everything up
  to that point, so the captured last repetition is the whole consumed
  prefix); shortening it cannot rescue a failed tail match because the
  atom language contains no `/`;
* the atom language `(\s*\d+\s*-*\s*\d*)*` is recognised by the DFA
  `rgxAtomsStep` below (states: 0 nothing yet, 1 leading spaces,
  2 after a digit, 3 spaces after a digit, 4 in a dash group, 5 spaces
  after a dash group, 6 dead; accepting: 0, 2, 3, 4, 5).
-/

/-- DFA step for `(\s*\d+\s*-*\s*\d*)*`. -/
def rgxAtomsStep (st : Nat) (c : Char) : Nat :=
  if pyIsSpace c then
    match st with
    | 0 => 1 | 1 => 1 | 2 => 3 | 3 => 3 | 4 => 5 | 5 => 5 | _ => 6
  else if c.isDigit then
    match st with
    | 0 => 2 | 1 => 2 | 2 => 2 | 3 => 2 | 4 => 2 | 5 => 2 | _ => 6
  else if c = '-' then
    match st with
    | 2 => 4 | 3 => 4 | 4 => 4 | _ => 6
  else 6

/-- Whether `cs` matches `(\s*\d+\s*-*\s*\d*)*` exactly. -/
def matchRangeAtoms (cs : List Char) : Bool :=
  let f := cs.foldl rgxAtomsStep 0
  f = 0 ∨ f = 2 ∨ f = 3 ∨ f = 4 ∨ f = 5

/-- A character the slot group can contain. -/
def isSlotChar (c : Char) : Bool := c.isDigit || c = '/'

/-- Length of the prefix the starred slot group consumes: up to the
last `/` (directly preceded by a digit) of the leading digit/slash
run; `0` when there is no such `/`. -/
def slotSplitLen (rest : List Char) : Nat :=
  let run := rest.takeWhile isSlotChar
  (List.range (run.length + 1)).foldl
    (fun acc j =>
      if 2 ≤ j ∧ run.getD (j - 1) ' ' = '/' ∧ (run.getD (j - 2) ' ').isDigit
      then j else acc) 0

/-- `_RGX_CISCO_RANGE.search(t0)`: the three captured groups, or
`none` when the pattern does not match. -/
def matchCiscoRangeRgx (t0 : List Char) : Option (List Char × List Char × List Char) :=
  let lp := t0.takeWhile (fun c => c.isAlpha || pyIsSpace c)
  let rest := t0.drop lp.length
  let j := slotSplitLen rest
  if matchRangeAtoms (rest.drop j) then some (lp, rest.take j, rest.drop j) else none

/-- `CiscoRange._parse_range_text`: regex the first comma chunk, then
re-attach the remaining chunks to the range text. -/
def parseRangeText (text : List Char) : Option (List Char × List Char × List Char) :=
  let tmp := splitChar ',' text
  match matchCiscoRangeRgx tmp.headI with
  | none => none
  | some (lp, sp, rt0) =>
    let rest := tmp.drop 1
    let rtext := if rest.length > 0 then rt0 ++ [','] ++ List.intercalate [','] rest else rt0
    some (lp, sp, rtext)

/-- The `result_type` of a `CiscoRange` (`str` by default, `int` the
other supported choice). -/
inductive RType where
  | str
  | int
deriving Repr, DecidableEq

/-- A stored item: the rendered label coerced to the result type. -/
inductive RItemVal where
  | vstr (s : String)
  | vint (n : Int)
deriving Repr, DecidableEq

/-- `self.result_type(chars)`: `str(...)` always succeeds, `int(...)`
can raise `ValueError`. -/
def coerceChars (rt : RType) (cs : List Char) : Option RItemVal :=
  match rt with
  | .str => some (.vstr (String.mk cs))
  | .int => (pyIntChars cs).map .vint

/-- Model of a `CiscoRange`: the two prefixes, the result type and the
item list `_list`. -/
structure CiscoRange where
  linePre : String
  slotPre : String
  rtype : RType
  list : List RItemVal
deriving Repr, DecidableEq

namespace CiscoRange

/-- `CiscoRange.__init__`: parse the prefixes and range text, expand
(`_range`), i.e. render every index of `_parse_dash_range` as
`line_prefix + slot_prefix + str(index)` coerced to the result type.
Empty text yields the empty collection. -/
def fromText (text : String) (rt : RType) : Option CiscoRange :=
  if text = "" then some { linePre := "", slotPre := "", rtype := rt, list := [] }
  else
    match parseRangeText text.data with
    | none => none
    | some (lp, sp, rtext) =>
      match parseDashRange rtext with
      | none => none
      | some idxs =>
        match idxs.mapM (fun n => coerceChars rt (lp ++ sp ++ (toString n).data)) with
        | none => none
        | some items =>
          some { linePre := String.mk lp, slotPre := String.mk sp, rtype := rt, list := items }

end CiscoRange

/-- `self.result_type(ii)` applied to an already-stored item (as done
inside `remove`): re-coercion between the representations. -/
def recoerce (rt : RType) (it : RItemVal) : Option RItemVal :=
  match rt, it with
  | .str, .vstr s => some (.vstr s)
  | .str, .vint n => some (.vstr (toString n))
  | .int, .vstr s => (pyIntChars s.data).map .vint
  | .int, .vint n => some (.vint n)

/-- One iteration of `remove`'s outer loop: coerce the item (a raised
`ValueError` is caught by the surrounding `try`, a silent skip), then
pop every matching occurrence (`while True: index/pop` until the
`ValueError` from `index`). -/
def removeStep (rt : RType) (acc : List RItemVal) (it : RItemVal) : List RItemVal :=
  match recoerce rt it with
  | none => acc
  | some y => acc.filter (fun x => x ≠ y)

namespace CiscoRange

/-- `CiscoRange.remove`: expand `arg` as a nested range expression
(with the default `str` result type) and drop every match. -/
def removeArg (r : CiscoRange) (arg : String) : Option CiscoRange :=
  (CiscoRange.fromText arg RType.str).map
    (fun rm => { r with list := rm.list.foldl (removeStep r.rtype) r.list })

/-- `CiscoRange.__setitem__`: evaluates (and returns) `self._list[ii]`
without ever assigning — an `IndexError` (`none`) only when `ii` is out
of range.  The pair is (state after the call, value the method
returned). -/
def setItem (r : CiscoRange) (ii : Nat) (_val : RItemVal) : Option (CiscoRange × RItemVal) :=
  match r.list.get? ii with
  | some x => some (r, x)
  | none => none

end CiscoRange

/-!
## `CiscoRange.compressed_str`

The method re-derives the integer index list (stripping
`^prefix(\d+)$` from each rendered item and passing the result to
`int(...)`, which can raise), de-duplicates and sorts it numerically
(`sorted(list(set(input)))`), then walks the sorted list: for every
interior position whose neighbours are both at distance 1 it pushes a
`"-"` marker (unless one is already last), otherwise the value itself;
finally it appends the last value and prints the list, separating two
items of the same type with a comma and gluing items of different
types (an int next to the `"-"` string) together.
-/

/-- An entry of the method's `range_list`: an integer or the `"-"`
marker string. -/
inductive RMark where
  | num (n : Int)
  | dash
deriving Repr, DecidableEq

/-- `str(entry)`. -/
def markChars : RMark → List Char
  | .num n => (toString n).data
  | .dash => ['-']

/-- `str(type(a)) == str(type(b))`: both ints or both strings. -/
def sameKind : RMark → RMark → Bool
  | .num _, .num _ => true
  | .dash, .dash => true
  | _, _ => false

/-- Strip `^prefix(\d+)$` from a rendered item (an unmatched item is
left as is) and apply `int(...)`. -/
def stripToInt (preCs : List Char) (it : RItemVal) : Option Int :=
  let cs := match it with
    | .vstr s => s.data
    | .vint n => (toString n).data
  let tail := cs.drop preCs.length
  let stripped :=
    if preCs.isPrefixOf cs ∧ tail ≠ [] ∧ tail.all Char.isDigit then tail else cs
  pyIntChars stripped

/-- Insert into a sorted duplicate-free list, keeping it so. -/
def insSorted (x : Int) : List Int → List Int
  | [] => [x]
  | y :: ys =>
    if x < y then x :: y :: ys
    else if x = y then y :: ys
    else y :: insSorted x ys

/-- `sorted(list(set(l)))` on ints: the unique strictly-sorted list
with the same members. -/
def sortedDedup (l : List Int) : List Int := l.foldr insSorted []

/-- The overlapping windows `(input[ii-1], input[ii], input[ii+1])`
for `ii = 1 .. len-2` — exactly the loop indices that pass the
`ii + 1 < len and ii - 1 > -1` guard. -/
def windows3 : List Int → List (Int × Int × Int)
  | a :: b :: c :: rest => (a, b, c) :: windows3 (b :: c :: rest)
  | _ => []

/-- The guarded body of the `range_list` loop: a window whose centre
has both neighbours at distance 1 pushes a dash unless one is already
last; any other window pushes its centre value. -/
def midFold : List RMark → List (Int × Int × Int) → List RMark
  | acc, [] => acc
  | acc, (a, b, c) :: rest =>
    if b - a = 1 ∧ c - b = 1 then
      midFold (if acc.getLast? ≠ some RMark.dash then acc ++ [RMark.dash] else acc) rest
    else
      midFold (acc ++ [RMark.num b]) rest

/-- The complete `range_list` for a (sorted, duplicate-free) index
list: the head value, the guarded loop, and — when there is more than
one element — the final value. -/
def rangeMarks (v : List Int) : List RMark :=
  match v with
  | [] => []
  | x :: _ =>
    let base := midFold [RMark.num x] (windows3 v)
    if v.length > 1 then base ++ [RMark.num (v.getLastD 0)] else base

/-- The printing loop after the first entry: same-type neighbours are
comma-separated, different-type neighbours are glued. -/
def renderRest (prev : RMark) : List RMark → List Char
  | [] => []
  | m :: ms =>
    (if sameKind m prev then ',' :: markChars m else markChars m) ++ renderRest m ms

namespace CiscoRange

/-- `CiscoRange.compressed_str`. -/
def compressedStr (r : CiscoRange) : Option String :=
  let preCs := r.linePre.data ++ r.slotPre.data
  match r.list.mapM (stripToInt preCs) with
  | none => none
  | some ints =>
    if ints.length = 0 then some ""
    else
      let v := sortedDedup ints
      match rangeMarks v with
      | [] => some ""
      | m :: ms => some (String.mk (preCs ++ markChars m ++ renderRest m ms))

end CiscoRange

/-!
## Spec-side predicates
-/

/-- Spec-side: the numeric index of a stored item (strip the prefix
and read the digits; `-1` when the item carries no index). -/
def itemIdx (preCs : List Char) (it : RItemVal) : Int :=
  (stripToInt preCs it).getD (-1)

/-- Adjacent-pairs ascending check. -/
def ascChain : List Int → Bool
  | x :: y :: rest => x ≤ y && ascChain (y :: rest)
  | _ => true

/-- Spec-side: the item list is sorted by ascending numeric index. -/
def numSortedItems (preCs : List Char) (l : List RItemVal) : Prop :=
  ascChain (l.map (itemIdx preCs)) = true

instance (preCs : List Char) (l : List RItemVal) : Decidable (numSortedItems preCs l) :=
  inferInstanceAs (Decidable (_ = true))

/-- Spec-side: `n` lies in the inclusive `[begin, end]` interval of
some comma atom of the range text. -/
def inAtomIntervals (rtext : List Char) (n : Nat) : Prop :=
  ∃ atom ∈ splitChar ',' rtext, ∃ b e : Int,
    parseAtomBounds atom = some (b, e) ∧ b ≤ (n : Int) ∧ (n : Int) ≤ e

/-!
## Theorems
-/

/-- Claim C2: `contains(other)` on two IPv4 values returns true
unconditionally when `self.prefix_length == 0`; returns false
immediately when `self.prefix_length > other.prefix_length`; and
otherwise returns true iff self's network span encloses other's span,
computed on network decimals and host counts. -/
theorem C2_contains_spec (s o : IPv4Obj) :
    (s.prefixlen = 0 → s.containsB o = true) ∧
    (s.prefixlen ≠ 0 → s.prefixlen > o.prefixlen → s.containsB o = false) ∧
    (s.prefixlen ≠ 0 → s.prefixlen ≤ o.prefixlen →
      (s.containsB o = true ↔
        s.as_decimal_network ≤ o.as_decimal_network ∧
          s.as_decimal_network + s.numhosts - 1 ≥ o.as_decimal_network + o.numhosts - 1)) := by
  refine ⟨fun h0 => ?_, fun h0 hgt => ?_, fun h0 hle => ?_⟩
  · unfold IPv4Obj.containsB
    simp [h0]
  · unfold IPv4Obj.containsB
    simp only [if_neg h0]
    simp [hgt]
  · unfold IPv4Obj.containsB
    simp only [if_neg h0, if_neg (by omega : ¬ s.prefixlen > o.prefixlen)]
    simp

/-- Witness for C2 at the spec's own examples: `0.0.0.0/0` contains
`1.1.1.1/32`; `4.0.0.0/24` does not contain `4.0.0.0/16`; `4.0.0.0/16`
contains `4.0.1.1/32`. -/
theorem C2_witness :
    IPv4Obj.containsB ⟨0, 0⟩ ⟨16843009, 32⟩ = true ∧
    IPv4Obj.containsB ⟨67108864, 24⟩ ⟨67108864, 16⟩ = false ∧
    IPv4Obj.containsB ⟨67108864, 16⟩ ⟨67109121, 32⟩ = true :=
  ⟨(C2_contains_spec ⟨0, 0⟩ ⟨16843009, 32⟩).1 rfl,
   (C2_contains_spec ⟨67108864, 24⟩ ⟨67108864, 16⟩).2.1 (by decide) (by decide),
   ((C2_contains_spec ⟨67108864, 16⟩ ⟨67109121, 32⟩).2.2 (by decide) (by decide)).mpr
     (by decide)⟩

/-- Claim C8: requesting the broadcast address of an IPv6 value always
fails with the unsupported-operation error (`NotImplementedError` in
the source), for every `IPv6Obj`; on IPv4 values the broadcast view is
available and is the top of the network span. -/
theorem C8_broadcast_v6_unsupported :
    (∀ a : IPv6Obj,
      a.broadcast = Except.error (PyErr.notImpl "IPv6 does not have broadcasts")) ∧
    (∀ b : IPv4Obj, b.broadcast = Except.ok (b.as_decimal_network + b.numhosts - 1)) :=
  ⟨fun _ => rfl, fun _ => rfl⟩

/-- Claim C10: item assignment on a `CiscoRange` is a silent no-op:
for every valid index, `__setitem__` raises nothing and leaves the
collection unchanged (the state component of the result is the
original collection). -/
theorem C10_setitem_noop (r : CiscoRange) (ii : Nat) (val : RItemVal)
    (h : ii < r.list.length) :
    ∃ x, r.setItem ii val = some (r, x) := by
  unfold CiscoRange.setItem
  rcases hg : r.list.get? ii with _ | x
  · rw [List.get?_eq_none] at hg
    omega
  · exact ⟨x, rfl⟩

/-- Witness for C10 at a one-element collection. -/
theorem C10_witness :
    ∃ x, CiscoRange.setItem ⟨"", "", RType.str, [RItemVal.vstr "5"]⟩ 0 (RItemVal.vstr "99") =
      some (⟨"", "", RType.str, [RItemVal.vstr "5"]⟩, x) :=
  C10_setitem_noop ⟨"", "", RType.str, [RItemVal.vstr "5"]⟩ 0 (RItemVal.vstr "99") (by decide)

/-- Claim C4: expanding `"1-3,5,9-11,13"` yields exactly the items
with index set `[1,2,3,5,9,10,11,13]`, and compressing that very
collection yields the string `"1-3,5,9-11,13"` back. -/
theorem C4_roundtrip_concrete :
    (CiscoRange.fromText "1-3,5,9-11,13" RType.str).map CiscoRange.list =
      some [RItemVal.vstr "1", RItemVal.vstr "2", RItemVal.vstr "3", RItemVal.vstr "5",
        RItemVal.vstr "9", RItemVal.vstr "10", RItemVal.vstr "11", RItemVal.vstr "13"] ∧
    (CiscoRange.fromText "1-3,5,9-11,13" RType.str).bind CiscoRange.compressedStr =
      some "1-3,5,9-11,13" := by
  constructor <;> rfl

/-- Counterexample to claim C3 as stated: the valid range expression
`"16,1"` expands to the items `["16", "1"]` — in CPython's set
iteration order (16 lands in slot 0 of the hash table, 1 in slot 1) —
which is not sorted by numeric index. -/
theorem C3_counterexample :
    (CiscoRange.fromText "16,1" RType.str).map CiscoRange.list =
      some [RItemVal.vstr "16", RItemVal.vstr "1"] ∧
    ¬ numSortedItems [] [RItemVal.vstr "16", RItemVal.vstr "1"] := by
  constructor
  · rfl
  · decide

/-- Counterexample to claim C6 as stated: cross-family comparison and
containment do *not* raise — `IPv6Obj` exposes the same numeric
attributes that the duck-typed methods read, so `0.0.0.0/0` reports it
contains `::1/128`, `1.1.1.1/32 > ::1/128` returns `True`, and
`::1/128 < 1.1.1.1/32` returns `True`. -/
theorem C6_counterexample :
    IPv4Obj.containsVal ⟨0, 0⟩ (PyVal.v6 ⟨1, 128⟩) = Except.ok true ∧
    IPv4Obj.gtVal ⟨16843009, 32⟩ (PyVal.v6 ⟨1, 128⟩) = Except.ok true ∧
    IPv6Obj.ltVal ⟨1, 128⟩ (PyVal.v4 ⟨16843009, 32⟩) = Except.ok true := by
  refine ⟨rfl, rfl, rfl⟩

/-!
## Ordering lemmas for C1
-/

/-- The network decimal is a function of the host value and the prefix
length, so numeric equality of those two determines it. -/
theorem IPv4Obj.ndec_congr {a b : IPv4Obj} (h1 : a.as_decimal = b.as_decimal)
    (h2 : a.prefixlen = b.prefixlen) :
    a.as_decimal_network = b.as_decimal_network := by
  unfold IPv4Obj.as_decimal at h1
  unfold IPv4Obj.as_decimal_network
  rw [h1, h2]

/-- `__eq__` characterization. -/
theorem IPv4Obj.eqb_iff (a b : IPv4Obj) :
    a.eqb b = true ↔ a.as_decimal = b.as_decimal ∧ a.prefixlen = b.prefixlen := by
  unfold IPv4Obj.eqb
  simp

/-- `__lt__` is the lexicographic order on
`(as_decimal_network, prefixlen, as_decimal)`. -/
theorem IPv4Obj.ltb_iff (a b : IPv4Obj) :
    a.ltb b = true ↔
      (a.as_decimal_network < b.as_decimal_network ∨
        (a.as_decimal_network = b.as_decimal_network ∧ a.prefixlen < b.prefixlen) ∨
        (a.as_decimal_network = b.as_decimal_network ∧ a.prefixlen = b.prefixlen ∧
          a.as_decimal < b.as_decimal)) := by
  unfold IPv4Obj.ltb
  split_ifs with h1 h2 <;> simp only [decide_eq_true_eq] <;>
    first
      | (obtain ⟨e1, e2⟩ := h1; constructor
         · intro h; exact Or.inr (Or.inr ⟨e1, e2, h⟩)
         · rintro (h | ⟨_, h⟩ | ⟨_, _, h⟩) <;> omega)
      | (constructor
         · intro h
           rcases Nat.lt_or_ge a.prefixlen b.prefixlen with hp | hp
           · exact Or.inr (Or.inl ⟨h2, h⟩)
           · exact Or.inr (Or.inl ⟨h2, h⟩)
         · rintro (h | ⟨_, h⟩ | ⟨e1, e2, _⟩) <;> simp_all)
      | (constructor
         · intro h; exact Or.inl h
         · rintro (h | ⟨e, _⟩ | ⟨e, _, _⟩) <;> simp_all)

/-- `__gt__` is the mirrored lexicographic order. -/
theorem IPv4Obj.gtb_iff (a b : IPv4Obj) :
    a.gtb b = true ↔
      (b.as_decimal_network < a.as_decimal_network ∨
        (a.as_decimal_network = b.as_decimal_network ∧ b.prefixlen < a.prefixlen) ∨
        (a.as_decimal_network = b.as_decimal_network ∧ a.prefixlen = b.prefixlen ∧
          b.as_decimal < a.as_decimal)) := by
  unfold IPv4Obj.gtb
  split_ifs with h1 h2 <;> simp only [decide_eq_true_eq] <;>
    first
      | (obtain ⟨e1, e2⟩ := h1; constructor
         · intro h; exact Or.inr (Or.inr ⟨e1, e2, h⟩)
         · rintro (h | ⟨_, h⟩ | ⟨_, _, h⟩) <;> omega)
      | (constructor
         · intro h; exact Or.inr (Or.inl ⟨h2, h⟩)
         · rintro (h | ⟨_, h⟩ | ⟨e1, e2, _⟩) <;> simp_all)
      | (constructor
         · intro h; exact Or.inl h
         · rintro (h | ⟨e, _⟩ | ⟨e, _, _⟩) <;> simp_all)

/-- Claim C1: on `IPv4Obj` values, exactly one of `a < b`, `a == b`,
`a > b` holds; `<` is transitive; `a == b` iff network decimal, prefix
length and host decimal all agree; the order is lexicographic on
(network decimal, prefix length, host decimal); and `>` mirrors `<`. -/
theorem C1_strict_total_order (a b c : IPv4Obj) :
    ((a.ltb b = true ∨ a.eqb b = true ∨ a.gtb b = true) ∧
      ¬(a.ltb b = true ∧ a.eqb b = true) ∧
      ¬(a.ltb b = true ∧ a.gtb b = true) ∧
      ¬(a.eqb b = true ∧ a.gtb b = true)) ∧
    (a.ltb b = true → b.ltb c = true → a.ltb c = true) ∧
    (a.eqb b = true ↔
      a.as_decimal_network = b.as_decimal_network ∧ a.prefixlen = b.prefixlen ∧
        a.as_decimal = b.as_decimal) ∧
    (a.ltb b = true ↔
      (a.as_decimal_network < b.as_decimal_network ∨
        (a.as_decimal_network = b.as_decimal_network ∧ a.prefixlen < b.prefixlen) ∨
        (a.as_decimal_network = b.as_decimal_network ∧ a.prefixlen = b.prefixlen ∧
          a.as_decimal < b.as_decimal))) ∧
    (a.gtb b = true ↔ b.ltb a = true) := by
  have hlt := IPv4Obj.ltb_iff a b
  have hgt := IPv4Obj.gtb_iff a b
  have heq := IPv4Obj.eqb_iff a b
  have hba := IPv4Obj.ltb_iff b a
  have hbc := IPv4Obj.ltb_iff b c
  have hac := IPv4Obj.ltb_iff a c
  refine ⟨⟨?_, ?_, ?_, ?_⟩, ?_, ?_, ?_, ?_⟩
  · by_cases hd : a.as_decimal = b.as_decimal ∧ a.prefixlen = b.prefixlen
    · exact Or.inr (Or.inl (heq.mpr hd))
    · rw [hlt, hgt]
      by_cases hn : a.as_decimal_network = b.as_decimal_network
      · by_cases hp : a.prefixlen = b.prefixlen
        · have : a.as_decimal ≠ b.as_decimal := fun h => hd ⟨h, hp⟩
          rcases Nat.lt_or_gt_of_ne this with h | h
          · exact Or.inl (Or.inr (Or.inr ⟨hn, hp, h⟩))
          · exact Or.inr (Or.inr (Or.inr (Or.inr ⟨hn, hp, h⟩)))
        · rcases Nat.lt_or_gt_of_ne hp with h | h
          · exact Or.inl (Or.inr (Or.inl ⟨hn, h⟩))
          · exact Or.inr (Or.inr (Or.inr (Or.inl ⟨hn, h⟩)))
      · rcases Nat.lt_or_gt_of_ne hn with h | h
        · exact Or.inl (Or.inl h)
        · exact Or.inr (Or.inr (Or.inl h))
  · rintro ⟨h1, h2⟩
    obtain ⟨e1, e2⟩ := heq.mp h2
    have e3 := IPv4Obj.ndec_congr e1 e2
    rw [hlt] at h1
    rcases h1 with h | ⟨_, h⟩ | ⟨_, _, h⟩ <;> omega
  · rintro ⟨h1, h2⟩
    rw [hlt] at h1
    rw [hgt] at h2
    rcases h1 with h | ⟨e, h⟩ | ⟨e, f, h⟩ <;> rcases h2 with h2 | ⟨e2, h2⟩ | ⟨e2, f2, h2⟩ <;>
      omega
  · rintro ⟨h1, h2⟩
    obtain ⟨e1, e2⟩ := heq.mp h1
    have e3 := IPv4Obj.ndec_congr e1 e2
    rw [hgt] at h2
    rcases h2 with h | ⟨_, h⟩ | ⟨_, _, h⟩ <;> omega
  · intro h1 h2
    rw [hlt] at h1
    rw [hbc] at h2
    rw [hac]
    rcases h1 with h | ⟨e, h⟩ | ⟨e, f, h⟩ <;> rcases h2 with h2 | ⟨e2, h2⟩ | ⟨e2, f2, h2⟩
    · exact Or.inl (by omega)
    · exact Or.inl (by omega)
    · exact Or.inl (by omega)
    · exact Or.inl (by omega)
    · exact Or.inr (Or.inl ⟨by omega, by omega⟩)
    · exact Or.inr (Or.inl ⟨by omega, by omega⟩)
    · exact Or.inl (by omega)
    · exact Or.inr (Or.inl ⟨by omega, by omega⟩)
    · exact Or.inr (Or.inr ⟨by omega, by omega, by omega⟩)
  · rw [heq]
    constructor
    · rintro ⟨e1, e2⟩
      exact ⟨IPv4Obj.ndec_congr e1 e2, e2, e1⟩
    · rintro ⟨_, e2, e1⟩
      exact ⟨e1, e2⟩
  · exact hlt
  · rw [hgt, hba]
    constructor
    · rintro (h | ⟨e, h⟩ | ⟨e, f, h⟩)
      · exact Or.inl h
      · exact Or.inr (Or.inl ⟨e.symm, h⟩)
      · exact Or.inr (Or.inr ⟨e.symm, f.symm, h⟩)
    · rintro (h | ⟨e, h⟩ | ⟨e, f, h⟩)
      · exact Or.inl h
      · exact Or.inr (Or.inl ⟨e.symm, h⟩)
      · exact Or.inr (Or.inr ⟨e.symm, f.symm, h⟩)

/-- Witness for C1: transitivity applied at `1.0.0.0/8 < 2.0.0.0/8 <
3.0.0.0/8` (host decimals 16777216, 33554432, 50331648). -/
theorem C1_witness :
    IPv4Obj.ltb ⟨16777216, 8⟩ ⟨50331648, 8⟩ = true :=
  (C1_strict_total_order ⟨16777216, 8⟩ ⟨33554432, 8⟩ ⟨50331648, 8⟩).2.1
    (by decide) (by decide)

/-- `IPv6Obj.__eq__` (same numeric comparison as the IPv4 class). -/
def IPv6Obj.eqb (a b : IPv6Obj) : Bool :=
  a.as_decimal = b.as_decimal ∧ a.prefixlen = b.prefixlen

/-- Claim C5: whenever the host value and `host + n` both lie in the
version's integer range, `(addr + n) - n == addr` and both intermediate
results carry the original prefix length; a sum outside the range makes
the addition fail with the range-check `assert` instead of wrapping.
Both the IPv4 and the IPv6 class are covered. -/
theorem C5_arith_roundtrip (a : IPv4Obj) (n : Int) (a6 : IPv6Obj) (m : Int) :
    (a.host ≤ 4294967295 → 0 ≤ (a.host : Int) + n → (a.host : Int) + n ≤ 4294967295 →
      ∃ b c : IPv4Obj, a.add n = Except.ok b ∧ b.prefixlen = a.prefixlen ∧
        b.sub n = Except.ok c ∧ c.prefixlen = a.prefixlen ∧ c.eqb a = true) ∧
    ((4294967295 < (a.host : Int) + n ∨ (a.host : Int) + n < 0) →
      ∃ e, a.add n = Except.error e) ∧
    (a6.host ≤ IPv6Obj.maxInt → 0 ≤ (a6.host : Int) + m →
      (a6.host : Int) + m ≤ (IPv6Obj.maxInt : Int) →
      ∃ b c : IPv6Obj, a6.add m = Except.ok b ∧ b.prefixlen = a6.prefixlen ∧
        b.sub m = Except.ok c ∧ c.prefixlen = a6.prefixlen ∧ c.eqb a6 = true) ∧
    (((IPv6Obj.maxInt : Int) < (a6.host : Int) + m ∨ (a6.host : Int) + m < 0) →
      ∃ e, a6.add m = Except.error e) := by
  refine ⟨fun hb h0 h1 => ?_, fun hout => ?_, fun hb h0 h1 => ?_, fun hout => ?_⟩
  · unfold IPv4Obj.add
    rw [if_neg (by unfold IPv4Obj.as_decimal; omega),
      if_neg (by unfold IPv4Obj.as_decimal; omega)]
    refine ⟨_, ⟨a.host, a.prefixlen⟩, rfl, rfl, ?_, rfl, ?_⟩
    · unfold IPv4Obj.sub
      rw [if_neg (by unfold IPv4Obj.as_decimal; dsimp only; omega),
        if_neg (by unfold IPv4Obj.as_decimal; dsimp only; omega)]
      simp only [Except.ok.injEq, IPv4Obj.mk.injEq]
      refine ⟨?_, trivial⟩
      unfold IPv4Obj.as_decimal
      dsimp only
      omega
    · rw [IPv4Obj.eqb_iff]
      exact ⟨rfl, rfl⟩
  · unfold IPv4Obj.add
    unfold IPv4Obj.as_decimal
    rcases hout with h | h
    · rw [if_pos (by omega)]
      exact ⟨_, rfl⟩
    · rw [if_neg (by omega), if_pos (by omega)]
      exact ⟨_, rfl⟩
  · unfold IPv6Obj.add
    rw [if_neg (by unfold IPv6Obj.as_decimal; omega),
      if_neg (by unfold IPv6Obj.as_decimal; omega)]
    refine ⟨_, ⟨a6.host, a6.prefixlen⟩, rfl, rfl, ?_, rfl, ?_⟩
    · unfold IPv6Obj.sub
      rw [if_neg (by unfold IPv6Obj.as_decimal; dsimp only; omega),
        if_neg (by unfold IPv6Obj.as_decimal; dsimp only; omega)]
      simp only [Except.ok.injEq, IPv6Obj.mk.injEq]
      refine ⟨?_, trivial⟩
      unfold IPv6Obj.as_decimal
      dsimp only
      omega
    · unfold IPv6Obj.eqb
      simp only [decide_eq_true_eq]
      exact ⟨by trivial, by trivial⟩
  · unfold IPv6Obj.add
    unfold IPv6Obj.as_decimal
    rcases hout with h | h
    · rw [if_pos (by omega)]
      exact ⟨_, rfl⟩
    · rw [if_neg (by omega), if_pos (by omega)]
      exact ⟨_, rfl⟩

/-- Witness for C5: round-trip `10.0.0.0/24 + 5 - 5` and the overflow
failure of `+ 2^32`, together with the IPv6 analogues. -/
theorem C5_witness :
    (∃ b c : IPv4Obj, IPv4Obj.add ⟨167772160, 24⟩ 5 = Except.ok b ∧
      b.prefixlen = 24 ∧ b.sub 5 = Except.ok c ∧ c.prefixlen = 24 ∧
      c.eqb ⟨167772160, 24⟩ = true) ∧
    (∃ e, IPv4Obj.add ⟨167772160, 24⟩ 4294967296 = Except.error e) ∧
    (∃ b c : IPv6Obj, IPv6Obj.add ⟨7, 64⟩ 3 = Except.ok b ∧
      b.prefixlen = 64 ∧ b.sub 3 = Except.ok c ∧ c.prefixlen = 64 ∧
      c.eqb ⟨7, 64⟩ = true) ∧
    (∃ e, IPv6Obj.add ⟨7, 64⟩ (-8) = Except.error e) :=
  ⟨(C5_arith_roundtrip ⟨167772160, 24⟩ 5 ⟨7, 64⟩ 3).1 (by decide) (by decide) (by decide),
   (C5_arith_roundtrip ⟨167772160, 24⟩ 4294967296 ⟨7, 64⟩ 3).2.1 (Or.inl (by decide)),
   (C5_arith_roundtrip ⟨167772160, 24⟩ 5 ⟨7, 64⟩ 3).2.2.1 (by decide) (by decide) (by decide),
   (C5_arith_roundtrip ⟨167772160, 24⟩ 5 ⟨7, 64⟩ (-8)).2.2.2 (Or.inr (by decide))⟩

/-- Claim C6 (amended): cross-family comparison and containment do not
raise — because `IPv6Obj` exposes the same numeric attributes that the
duck-typed methods read, every `IPv4Obj`/`IPv6Obj` mixed comparison or
containment test returns a boolean computed from those numbers; the
comparison `ValueError` is raised only for argument values that lack
the attributes (plain ints or strings). -/
theorem C6_cross_family_amended :
    (∀ (a : IPv4Obj) (b : IPv6Obj), ∃ g l c : Bool,
      a.gtVal (PyVal.v6 b) = Except.ok g ∧ a.ltVal (PyVal.v6 b) = Except.ok l ∧
        a.containsVal (PyVal.v6 b) = Except.ok c) ∧
    (∀ (a : IPv6Obj) (b : IPv4Obj), ∃ g l c : Bool,
      a.gtVal (PyVal.v4 b) = Except.ok g ∧ a.ltVal (PyVal.v4 b) = Except.ok l ∧
        a.containsVal (PyVal.v4 b) = Except.ok c) ∧
    (∀ (a : IPv4Obj) (n : Int) (s : String),
      (∃ e, a.gtVal (PyVal.intv n) = Except.error e) ∧
      (∃ e, a.ltVal (PyVal.strv s) = Except.error e) ∧
      (a.prefixlen ≠ 0 → ∃ e, a.containsVal (PyVal.intv n) = Except.error e)) ∧
    (∀ (a : IPv6Obj) (n : Int) (s : String),
      (∃ e, a.gtVal (PyVal.intv n) = Except.error e) ∧
      (∃ e, a.ltVal (PyVal.strv s) = Except.error e) ∧
      (a.prefixlen ≠ 0 → ∃ e, a.containsVal (PyVal.intv n) = Except.error e)) := by
  refine ⟨fun a b => ?_, fun a b => ?_, fun a n s => ⟨⟨_, rfl⟩, ⟨_, rfl⟩, fun h0 => ?_⟩,
    fun a n s => ⟨⟨_, rfl⟩, ⟨_, rfl⟩, fun h0 => ?_⟩⟩
  · have hc : ∃ c : Bool, a.containsVal (PyVal.v6 b) = Except.ok c := by
      unfold IPv4Obj.containsVal
      simp only [PyVal.containAttrs]
      split_ifs <;> exact ⟨_, rfl⟩
    obtain ⟨c, hc⟩ := hc
    exact ⟨_, _, c, rfl, rfl, hc⟩
  · have hc : ∃ c : Bool, a.containsVal (PyVal.v4 b) = Except.ok c := by
      unfold IPv6Obj.containsVal
      simp only [PyVal.containAttrs]
      split_ifs <;> exact ⟨_, rfl⟩
    obtain ⟨c, hc⟩ := hc
    exact ⟨_, _, c, rfl, rfl, hc⟩
  · unfold IPv4Obj.containsVal
    rw [if_neg h0]
    exact ⟨_, rfl⟩
  · unfold IPv6Obj.containsVal
    rw [if_neg h0]
    exact ⟨_, rfl⟩

/-- Witness for C6's amended statement: the containment error path at
a concrete nonzero prefix length. -/
theorem C6_witness :
    ∃ e, IPv4Obj.containsVal ⟨16843009, 32⟩ (PyVal.intv 5) = Except.error e :=
  (C6_cross_family_amended.2.2.1 ⟨16843009, 32⟩ 5 "x").2.2 (by decide)

/-!
## Removal lemmas for C9
-/

/-- Folding `removeStep` filters out exactly the re-coerced expansion
items: membership in the result means membership in the original list
and matching none of the removed items. -/
theorem removeFold_mem (rt : RType) (its : List RItemVal) :
    ∀ (l : List RItemVal) (x : RItemVal),
      x ∈ its.foldl (removeStep rt) l ↔
        x ∈ l ∧ ∀ it ∈ its, recoerce rt it ≠ some x := by
  induction its with
  | nil => simp
  | cons it its ih =>
    intro l x
    simp only [List.foldl_cons, ih, List.mem_cons]
    unfold removeStep
    rcases hr : recoerce rt it with _ | y
    · constructor
      · rintro ⟨hx, hrest⟩
        refine ⟨hx, ?_⟩
        rintro it2 (rfl | h2)
        · rw [hr]; simp
        · exact hrest it2 h2
      · rintro ⟨hx, hall⟩
        exact ⟨hx, fun it2 h2 => hall it2 (Or.inr h2)⟩
    · simp only [List.mem_filter, decide_eq_true_eq]
      constructor
      · rintro ⟨⟨hx, hne⟩, hrest⟩
        refine ⟨hx, ?_⟩
        rintro it2 (rfl | h2)
        · rw [hr]
          intro hcon
          exact hne (by injection hcon with h; exact h.symm) 
        · exact hrest it2 h2
      · rintro ⟨hx, hall⟩
        refine ⟨⟨hx, ?_⟩, fun it2 h2 => hall it2 (Or.inr h2)⟩
        intro hxy
        exact hall it (Or.inl rfl) (by rw [hr, hxy])

/-- When none of the re-coerced expansion items occurs in the list,
folding `removeStep` is the identity. -/
theorem removeFold_noop (rt : RType) (its : List RItemVal) :
    ∀ l : List RItemVal,
      (∀ it ∈ its, ∀ y, recoerce rt it = some y → y ∉ l) →
      its.foldl (removeStep rt) l = l := by
  induction its with
  | nil => intro l _; rfl
  | cons it its ih =>
    intro l h
    simp only [List.foldl_cons]
    have hstep : removeStep rt l it = l := by
      unfold removeStep
      rcases hr : recoerce rt it with _ | y
      · rfl
      · refine List.filter_eq_self.mpr ?_
        intro a ha
        simp only [decide_eq_true_eq]
        intro hay
        exact h it (List.mem_cons_self it its) y hr (hay ▸ ha)
    rw [hstep]
    exact ih l (fun it2 h2 => h it2 (List.mem_cons_of_mem it h2))

/-- Claim C9: `remove` expands its argument as a nested range
expression and removes every matching occurrence of each expanded item;
an expanded item with no match is silently skipped, so removing a
non-member raises nothing and leaves the collection unchanged. -/
theorem C9_remove_semantics (r : CiscoRange) (arg : String) (rma : CiscoRange)
    (h : CiscoRange.fromText arg RType.str = some rma) :
    ∃ rm, r.removeArg arg = some rm ∧
      rm.linePre = r.linePre ∧ rm.slotPre = r.slotPre ∧ rm.rtype = r.rtype ∧
      (∀ x, x ∈ rm.list ↔ x ∈ r.list ∧ ∀ it ∈ rma.list, recoerce r.rtype it ≠ some x) ∧
      ((∀ it ∈ rma.list, ∀ y, recoerce r.rtype it = some y → y ∉ r.list) → rm = r) := by
  refine ⟨{ r with list := rma.list.foldl (removeStep r.rtype) r.list },
    by unfold CiscoRange.removeArg; rw [h]; rfl, rfl, rfl, rfl, ?_, ?_⟩
  · intro x
    exact removeFold_mem r.rtype rma.list r.list x
  · intro hnone
    have heq : rma.list.foldl (removeStep r.rtype) r.list = r.list :=
      removeFold_noop r.rtype rma.list r.list hnone
    rw [heq]

/-- Witness for C9: removing the absent `"7"` from the collection
`{5}` is accepted and is a no-op. -/
theorem C9_witness :
    ∃ rm, CiscoRange.removeArg ⟨"", "", RType.str, [RItemVal.vstr "5"]⟩ "7" = some rm ∧
      rm.linePre = "" ∧ rm.slotPre = "" ∧ rm.rtype = RType.str ∧
      (∀ x, x ∈ rm.list ↔ x ∈ [RItemVal.vstr "5"] ∧
        ∀ it ∈ [RItemVal.vstr "7"], recoerce RType.str it ≠ some x) ∧
      ((∀ it ∈ [RItemVal.vstr "7"], ∀ y, recoerce RType.str it = some y →
          y ∉ [RItemVal.vstr "5"]) →
        rm = ⟨"", "", RType.str, [RItemVal.vstr "5"]⟩) :=
  C9_remove_semantics ⟨"", "", RType.str, [RItemVal.vstr "5"]⟩ "7"
    ⟨"", "", RType.str, [RItemVal.vstr "7"]⟩ (by rfl)

/-!
## Set-model lemmas for C3
-/

theorem tget_nil (j : Nat) : tget [] j = none := rfl

theorem tget_cons_zero (h : Option Nat) (t : List (Option Nat)) : tget (h :: t) 0 = h := by
  cases h <;> rfl

theorem tget_cons_succ (h : Option Nat) (t : List (Option Nat)) (j : Nat) :
    tget (h :: t) (j + 1) = tget t j := rfl

/-- A key read off a slot is a member of the iteration. -/
theorem tget_some_mem (t : List (Option Nat)) (j k : Nat) (h : tget t j = some k) :
    k ∈ t.filterMap id := by
  induction t generalizing j with
  | nil => rw [tget_nil] at h; cases h
  | cons hd tl ih =>
    cases j with
    | zero =>
      rw [tget_cons_zero] at h
      subst h
      simp [List.filterMap_cons]
    | succ j =>
      rw [tget_cons_succ] at h
      rcases hd with _ | y
      · exact ih j h
      · exact List.mem_cons_of_mem y (ih j h)

/-- Writing a key into an empty in-range slot adds exactly that key to
the iteration, as far as membership goes. -/
theorem mem_filterMap_set (t : List (Option Nat)) (j k : Nat)
    (hj : tget t j = none) (hlt : j < t.length) (x : Nat) :
    x ∈ (t.set j (some k)).filterMap id ↔ x = k ∨ x ∈ t.filterMap id := by
  induction t generalizing j with
  | nil => simp at hlt
  | cons hd tl ih =>
    cases j with
    | zero =>
      rw [tget_cons_zero] at hj
      subst hj
      simp [List.set, List.filterMap_cons]
    | succ j =>
      rw [tget_cons_succ] at hj
      have hlt' : j < tl.length := by simpa using hlt
      rcases hd with _ | y <;>
          (simp [List.set, List.filterMap_cons, ih j hj hlt']; try tauto)

/-- Every probed slot index is below the table size. -/
theorem probeBlocks_bound (size : Nat) (hs : 0 < size) :
    ∀ (fuel i perturb : Nat), i < size → ∀ j ∈ probeBlocks size fuel i perturb, j < size := by
  intro fuel
  induction fuel with
  | zero =>
    intro i p hi j hj
    simp [probeBlocks] at hj
  | succ f ih =>
    intro i p hi j hj
    unfold probeBlocks at hj
    rcases List.mem_append.mp hj with h1 | h2
    · rcases List.mem_cons.mp h1 with rfl | hlin
      · exact hi
      · by_cases hc : i + 10 ≤ size
        · rw [if_pos hc] at hlin
          obtain ⟨jj, hjj, rfl⟩ := List.mem_map.mp hlin
          have := List.mem_range.mp hjj
          omega
        · rw [if_neg hc] at hlin
          cases hlin
    · exact ih _ _ (Nat.mod_lt _ hs) j h2

theorem probeSeq_bound (size h : Nat) (hs : 0 < size) :
    ∀ j ∈ probeSeq size h, j < size :=
  probeBlocks_bound size hs 64 (h % size) h (Nat.mod_lt _ hs)

theorem findSlot_spec (t : List (Option Nat)) (key : Nat) (ps : List Nat) (j : Nat)
    (h : findSlot t key ps = some j) :
    j ∈ ps ∧ (tget t j = none ∨ tget t j = some key) := by
  unfold findSlot at h
  refine ⟨List.mem_of_find?_eq_some h, ?_⟩
  have := List.find?_some h
  exact of_decide_eq_true this

theorem findEmpty_spec (t : List (Option Nat)) (ps : List Nat) (j : Nat)
    (h : findEmpty t ps = some j) :
    j ∈ ps ∧ tget t j = none := by
  unfold findEmpty at h
  refine ⟨List.mem_of_find?_eq_some h, ?_⟩
  have := List.find?_some h
  exact of_decide_eq_true this

/-- `set_insert_clean` adds exactly its key. -/
theorem cleanInsert_mem (t t' : List (Option Nat)) (k : Nat) (hs : 0 < t.length)
    (h : cleanInsert t k = some t') :
    t'.length = t.length ∧ ∀ x, (x ∈ t'.filterMap id ↔ x = k ∨ x ∈ t.filterMap id) := by
  unfold cleanInsert at h
  rcases hf : findEmpty t (probeSeq t.length (pyHash k)) with _ | j
  · rw [hf] at h; cases h
  · rw [hf] at h
    injection h with h
    subst h
    obtain ⟨hmem, hempty⟩ := findEmpty_spec t _ j hf
    have hj : j < t.length := probeSeq_bound t.length (pyHash k) hs j hmem
    exact ⟨by simp, fun x => mem_filterMap_set t j k hempty hj x⟩

/-- Folding `set_insert_clean` over a key list unions the keys in. -/
theorem cleanFold_mem (keys : List Nat) :
    ∀ (t0 t2 : List (Option Nat)), 0 < t0.length →
      keys.foldlM cleanInsert t0 = some t2 →
      t2.length = t0.length ∧ ∀ x, (x ∈ t2.filterMap id ↔ x ∈ keys ∨ x ∈ t0.filterMap id) := by
  induction keys with
  | nil =>
    intro t0 t2 h0 h
    injection h with h
    subst h
    simp
  | cons k keys ih =>
    intro t0 t2 h0 h
    rw [List.foldlM_cons] at h
    rcases hc : cleanInsert t0 k with _ | t1
    · rw [hc] at h; cases h
    · rw [hc] at h
      simp only [Option.bind_eq_bind, Option.some_bind] at h
      obtain ⟨hlen1, hmem1⟩ := cleanInsert_mem t0 t1 k h0 hc
      obtain ⟨hlen2, hmem2⟩ := ih t1 t2 (by omega) h
      refine ⟨by omega, fun x => ?_⟩
      rw [hmem2, hmem1]
      simp only [List.mem_cons]
      tauto

theorem growSize_ge (fuel m : Nat) : ∀ s, s ≤ growSize fuel s m := by
  induction fuel with
  | zero => intro s; simp [growSize]
  | succ f ih =>
    intro s
    unfold growSize
    split_ifs
    · exact le_trans (by omega) (ih (s * 2))
    · exact le_refl s

theorem filterMap_id_replicate_none (n : Nat) :
    (List.replicate n (none : Option Nat)).filterMap id = [] := by
  induction n with
  | zero => rfl
  | succ n ih => exact ih

/-- `set_table_resize` preserves the key membership. -/
theorem setResize_mem (keys : List Nat) (minused : Nat) (t2 : List (Option Nat))
    (h : setResize keys minused = some t2) :
    0 < t2.length ∧ ∀ x, (x ∈ t2.filterMap id ↔ x ∈ keys) := by
  unfold setResize at h
  have hlen0 : 0 < (List.replicate (growSize 64 8 minused) (none : Option Nat)).length := by
    simp only [List.length_replicate]
    have := growSize_ge 64 minused 8
    omega
  obtain ⟨hlen, hmem⟩ := cleanFold_mem keys _ t2 hlen0 h
  refine ⟨by rw [hlen]; exact hlen0, fun x => ?_⟩
  rw [hmem x]
  have hrep : (List.replicate (growSize 64 8 minused) (none : Option Nat)).filterMap id = [] :=
    filterMap_id_replicate_none _
  rw [hrep]
  simp

/-- `set_add_entry` adds exactly its key (as a set of keys); an
already-present key leaves the table unchanged. -/
theorem pySetAdd_mem (s s' : PySet) (k : Nat) (hlen : 0 < s.table.length)
    (h : pySetAdd s k = some s') :
    0 < s'.table.length ∧ ∀ x, (x ∈ pySetKeys s' ↔ x = k ∨ x ∈ pySetKeys s) := by
  unfold pySetAdd at h
  rcases hf : findSlot s.table k (probeSeq s.table.length (pyHash k)) with _ | j
  · rw [hf] at h; cases h
  · rw [hf] at h
    dsimp only at h
    obtain ⟨hmem, hcond⟩ := findSlot_spec s.table k _ j hf
    have hj : j < s.table.length := probeSeq_bound s.table.length (pyHash k) hlen j hmem
    rcases hg : tget s.table j with _ | y
    · rw [hg] at h
      simp only at h
      generalize (if s.fill + 1 > 50000 then (s.fill + 1) * 2 else (s.fill + 1) * 4) = minused at h
      split_ifs at h with hfill
      · injection h with h
        subst h
        refine ⟨by simpa using hlen, fun x => ?_⟩
        exact mem_filterMap_set s.table j k hg hj x
      · rcases hr : setResize ((s.table.set j (some k)).filterMap id) minused with _ | t2
        · rw [hr] at h; cases h
        · rw [hr] at h
          have h2 := Option.some.inj h
          subst h2
          obtain ⟨hlen2, hmem2⟩ := setResize_mem _ _ t2 hr
          refine ⟨hlen2, fun x => ?_⟩
          unfold pySetKeys
          rw [hmem2 x]
          exact mem_filterMap_set s.table j k hg hj x
    · rw [hg] at h
      simp only at h
      injection h with h
      subst h
      have hyk : y = k := by
        rcases hcond with hc | hc
        · rw [hg] at hc; cases hc
        · rw [hg] at hc
          exact Option.some.inj hc
      subst hyk
      refine ⟨hlen, fun x => ?_⟩
      constructor
      · exact fun hx => Or.inr hx
      · rintro (rfl | hx)
        · exact tget_some_mem s.table j x hg
        · exact hx

/-- Building a set from a list collects exactly the list members. -/
theorem pySetFold_mem (l : List Nat) :
    ∀ (s0 s : PySet), 0 < s0.table.length →
      l.foldlM pySetAdd s0 = some s →
      0 < s.table.length ∧ ∀ x, (x ∈ pySetKeys s ↔ x ∈ l ∨ x ∈ pySetKeys s0) := by
  induction l with
  | nil =>
    intro s0 s h0 h
    injection h with h
    subst h
    exact ⟨h0, fun x => by simp⟩
  | cons k l ih =>
    intro s0 s h0 h
    rw [List.foldlM_cons] at h
    rcases hc : pySetAdd s0 k with _ | s1
    · rw [hc] at h; cases h
    · rw [hc] at h
      simp only [Option.bind_eq_bind, Option.some_bind] at h
      obtain ⟨hlen1, hmem1⟩ := pySetAdd_mem s0 s1 k h0 hc
      obtain ⟨hlen2, hmem2⟩ := ih s1 s hlen1 h
      refine ⟨hlen2, fun x => ?_⟩
      rw [hmem2 x, hmem1 x]
      simp only [List.mem_cons]
      tauto

/-- `list(set(l))` has exactly the members of `l`. -/
theorem pyListSet_mem (l out : List Nat) (h : pyListSet l = some out) :
    ∀ x, x ∈ out ↔ x ∈ l := by
  unfold pyListSet pySetOfList at h
  rcases hf : l.foldlM pySetAdd pySetEmpty with _ | s
  · rw [hf] at h; cases h
  · rw [hf] at h
    have h2 := Option.some.inj h
    subst h2
    obtain ⟨_, hmem⟩ := pySetFold_mem l pySetEmpty s (by simp [pySetEmpty]) hf
    intro x
    rw [hmem x]
    have hek : pySetKeys pySetEmpty = [] := filterMap_id_replicate_none 8
    rw [hek]
    simp

/-!
## Expansion lemmas for C3
-/

/-- Membership in a successful `mapM` result. -/
theorem mapM_option_mem {α β : Type} (f : α → Option β) (as : List α) :
    ∀ bs : List β, as.mapM f = some bs →
      ∀ y, (y ∈ bs ↔ ∃ a ∈ as, f a = some y) := by
  induction as with
  | nil =>
    intro bs h y
    injection h with h
    subst h
    simp
  | cons a as ih =>
    intro bs h y
    rw [List.mapM_cons] at h
    rcases ha : f a with _ | b
    · rw [ha] at h; cases h
    · rw [ha] at h
      rcases hm : as.mapM f with _ | bs2
      · rw [hm] at h
        cases h
      · rw [hm] at h
        have h2 := Option.some.inj h
        subst h2
        simp only [List.mem_cons]
        constructor
        · rintro (rfl | hy)
          · exact ⟨a, Or.inl rfl, ha⟩
          · obtain ⟨a2, ha2, hf2⟩ := (ih bs2 hm y).mp hy
            exact ⟨a2, Or.inr ha2, hf2⟩
        · rintro ⟨a2, ha2, hf2⟩
          rcases ha2 with rfl | ha2
          · rw [ha] at hf2
            exact Or.inl (Option.some.inj hf2).symm
          · exact Or.inr ((ih bs2 hm y).mpr ⟨a2, ha2, hf2⟩)

/-- A successful `mapM` maps every input somewhere. -/
theorem mapM_option_forall {α β : Type} (f : α → Option β) (as : List α) :
    ∀ bs : List β, as.mapM f = some bs →
      ∀ a ∈ as, ∃ b, f a = some b ∧ b ∈ bs := by
  induction as with
  | nil =>
    intro bs _ a ha
    cases ha
  | cons a0 as ih =>
    intro bs h a ha
    rw [List.mapM_cons] at h
    rcases ha0 : f a0 with _ | b0
    · rw [ha0] at h; cases h
    · rw [ha0] at h
      rcases hm : as.mapM f with _ | bs2
      · rw [hm] at h; cases h
      · rw [hm] at h
        have h2 := Option.some.inj h
        subst h2
        rcases List.mem_cons.mp ha with rfl | ha
        · exact ⟨b0, ha0, List.mem_cons_self b0 bs2⟩
        · obtain ⟨b, hb, hbs⟩ := ih bs2 hm a ha
          exact ⟨b, hb, List.mem_cons_of_mem b0 hbs⟩

/-- A successful atom expansion is exactly the inclusive interval of
its parsed bounds. -/
theorem atomVals_mem (atom : List Char) (vals : List Nat)
    (h : atomVals atom = some vals) (n : Nat) :
    n ∈ vals ↔ ∃ b e : Int, parseAtomBounds atom = some (b, e) ∧
      b ≤ (n : Int) ∧ (n : Int) ≤ e := by
  unfold atomVals at h
  rcases hb : parseAtomBounds atom with _ | ⟨b, e⟩
  · rw [hb] at h; cases h
  · rw [hb] at h
    dsimp only at h
    split_ifs at h with hcond
    · have h2 := Option.some.inj h
      subst h2
      simp only [List.mem_map, List.mem_range]
      constructor
      · rintro ⟨i, hi, rfl⟩
        exact ⟨b, e, rfl, by omega, by omega⟩
      · rintro ⟨b2, e2, heq, h1, h2⟩
        have hbe := Option.some.inj heq
        have hx : b = b2 := congrArg Prod.fst hbe
        have hy : e = e2 := congrArg Prod.snd hbe
        exact ⟨n - b.toNat, by omega, by omega⟩

/-- Membership in the pre-deduplication expansion is membership in
some atom's interval. -/
theorem parseDashRangePre_mem (rtext : List Char) (l : List Nat)
    (h : parseDashRangePre rtext = some l) (n : Nat) :
    n ∈ l ↔ inAtomIntervals rtext n := by
  unfold parseDashRangePre at h
  rcases hm : (splitChar ',' rtext).mapM atomVals with _ | parts
  · rw [hm] at h; cases h
  · rw [hm] at h
    have h2 := Option.some.inj h
    subst h2
    unfold inAtomIntervals
    rw [List.mem_flatten]
    constructor
    · rintro ⟨part, hpart, hn⟩
      obtain ⟨atom, hatom, hav⟩ := (mapM_option_mem atomVals _ parts hm part).mp hpart
      obtain ⟨b, e, hbe, h1, h2⟩ := (atomVals_mem atom part hav n).mp hn
      exact ⟨atom, hatom, b, e, hbe, h1, h2⟩
    · rintro ⟨atom, hatom, b, e, hbe, h1, h2⟩
      obtain ⟨part, hav, hparts⟩ := mapM_option_forall atomVals _ parts hm atom hatom
      refine ⟨part, hparts, ?_⟩
      exact (atomVals_mem atom part hav n).mpr ⟨b, e, hbe, h1, h2⟩

/-- Claim C3 (amended): expansion generates every integer of each
comma atom's inclusive `[start, end]` interval — an item is in the
collection exactly when it is the rendering
`line_prefix + slot_prefix + value`, coerced to the result type, of
some integer in some atom's interval (so values are de-duplicated
across atoms as a set) — but the resulting item list follows CPython's
hash-set iteration order, which is *not* numerically sorted in
general: `"1-3,2"` does come out as `["1","2","3"]`, while `"16,1"`
comes out as `["16","1"]`. -/
theorem C3_expansion_amended :
    (∀ (text : String) (rt : RType) (r : CiscoRange) (lp sp rtext : List Char),
      parseRangeText text.data = some (lp, sp, rtext) →
      CiscoRange.fromText text rt = some r →
      r.linePre = String.mk lp ∧ r.slotPre = String.mk sp ∧
      ∀ it, (it ∈ r.list ↔ ∃ n : Nat, inAtomIntervals rtext n ∧
        coerceChars rt (lp ++ sp ++ (toString n).data) = some it)) ∧
    ((CiscoRange.fromText "1-3,2" RType.str).map CiscoRange.list =
      some [RItemVal.vstr "1", RItemVal.vstr "2", RItemVal.vstr "3"]) ∧
    ((CiscoRange.fromText "16,1" RType.str).map CiscoRange.list =
      some [RItemVal.vstr "16", RItemVal.vstr "1"]) ∧
    ¬ numSortedItems [] [RItemVal.vstr "16", RItemVal.vstr "1"] := by
  refine ⟨?_, rfl, rfl, by decide⟩
  intro text rt r lp sp rtext hparse hfrom
  unfold CiscoRange.fromText at hfrom
  by_cases htext : text = ""
  · rw [if_pos htext] at hfrom
    have hr := Option.some.inj hfrom
    subst hr
    subst htext
    have hempty : (some (([] : List Char), ([] : List Char), ([] : List Char)) :
        Option (List Char × List Char × List Char)) = some (lp, sp, rtext) := hparse
    have hlp : ([] : List Char) = lp := congrArg (fun x => x.1) (Option.some.inj hempty)
    have hsp : ([] : List Char) = sp := congrArg (fun x => x.2.1) (Option.some.inj hempty)
    have hrt : ([] : List Char) = rtext := congrArg (fun x => x.2.2) (Option.some.inj hempty)
    subst hlp
    subst hsp
    subst hrt
    refine ⟨rfl, rfl, fun it => ?_⟩
    simp only [List.not_mem_nil, false_iff]
    rintro ⟨n, ⟨atom, hatom, b, e, hpb, _, _⟩, _⟩
    have hat : atom = [] := by
      have h2 : atom ∈ [([] : List Char)] := hatom
      simpa using h2
    subst hat
    exact Option.noConfusion
      (show (none : Option (Int × Int)) = some (b, e) from hpb)
  · rw [if_neg htext] at hfrom
    rw [hparse] at hfrom
    dsimp only at hfrom
    rcases hd : parseDashRange rtext with _ | idxs
    · rw [hd] at hfrom; cases hfrom
    · rw [hd] at hfrom
      dsimp only at hfrom
      rcases hmapc : idxs.mapM (fun n => coerceChars rt (lp ++ sp ++ (toString n).data))
          with _ | items
      · rw [hmapc] at hfrom; cases hfrom
      · rw [hmapc] at hfrom
        have hr := Option.some.inj hfrom
        subst hr
        refine ⟨rfl, rfl, fun it => ?_⟩
        unfold parseDashRange at hd
        rcases hpre : parseDashRangePre rtext with _ | pre
        · rw [hpre] at hd; cases hd
        · rw [hpre] at hd
          rw [mapM_option_mem _ idxs items hmapc it]
          constructor
          · rintro ⟨n, hn, hc⟩
            exact ⟨n, (parseDashRangePre_mem rtext pre hpre n).mp
              ((pyListSet_mem pre idxs hd n).mp hn), hc⟩
          · rintro ⟨n, hint, hc⟩
            exact ⟨n, (pyListSet_mem pre idxs hd n).mpr
              ((parseDashRangePre_mem rtext pre hpre n).mpr hint), hc⟩

/-- Witness for C3's amended statement: the prefixes captured on
`"16,1"` are both empty. -/
theorem C3_witness :
    (⟨"", "", RType.str, [RItemVal.vstr "16", RItemVal.vstr "1"]⟩ : CiscoRange).linePre = "" :=
  (C3_expansion_amended.1 "16,1" RType.str
    ⟨"", "", RType.str, [RItemVal.vstr "16", RItemVal.vstr "1"]⟩
    [] [] ('1' :: '6' :: ',' :: '1' :: []) rfl rfl).1

/-!
## Compression lemmas for C7
-/

/-- Spec-side: no dash connects two values fewer than 2 apart, i.e.
every `num x, dash, num y` segment of the `range_list` spans a run of
at least three integers. -/
def noShortDash (ms : List RMark) : Prop :=
  ∀ x y : Int, List.IsInfix [RMark.num x, RMark.dash, RMark.num y] ms → x + 2 ≤ y

/-- `ms` ends with the two entries `num x, dash`. -/
def dashEnd (ms : List RMark) (x : Int) : Prop :=
  ∃ s, ms = s ++ [RMark.num x, RMark.dash]

theorem append_singleton_inj {α : Type} {l1 l2 : List α} {a b : α}
    (h : l1 ++ [a] = l2 ++ [b]) : l1 = l2 ∧ a = b := by
  have h1 : a :: l1.reverse = b :: l2.reverse := by
    simpa using congrArg List.reverse h
  injection h1 with h2 h3
  exact ⟨by simpa using congrArg List.reverse h3, h2⟩

/-- An infix of `l ++ [w]` is an infix of `l` unless it is a suffix
ending at `w`. -/
theorem infix_append_one {p1 p2 p3 : RMark} {l : List RMark} {w : RMark}
    (h : List.IsInfix [p1, p2, p3] (l ++ [w])) :
    List.IsInfix [p1, p2, p3] l ∨ ((∃ s, l = s ++ [p1, p2]) ∧ p3 = w) := by
  obtain ⟨s, t, hst⟩ := h
  rcases List.eq_nil_or_concat t with rfl | ⟨t2, tl, rfl⟩
  · right
    have h2 : (s ++ [p1, p2]) ++ [p3] = l ++ [w] := by
      rw [← hst]; simp
    obtain ⟨hl, hw⟩ := append_singleton_inj h2
    exact ⟨⟨s, hl.symm⟩, hw⟩
  · left
    have h2 : (s ++ [p1, p2, p3] ++ t2) ++ [tl] = l ++ [w] := by
      rw [← hst]; simp
    obtain ⟨hl, _⟩ := append_singleton_inj h2
    exact ⟨s, t2, hl⟩

theorem noShortDash_small (ms : List RMark) (h : ms.length < 3) : noShortDash ms := by
  intro x y hinf
  have := hinf.length_le
  simp at this
  omega

theorem noShortDash_append_dash (ms : List RMark) (hn : noShortDash ms) :
    noShortDash (ms ++ [RMark.dash]) := by
  intro x y hinf
  rcases infix_append_one hinf with h1 | ⟨_, hy⟩
  · exact hn x y h1
  · cases hy

theorem noShortDash_append_num (ms : List RMark) (b : Int) (hn : noShortDash ms)
    (hd : ∀ x, dashEnd ms x → x + 2 ≤ b) :
    noShortDash (ms ++ [RMark.num b]) := by
  intro x y hinf
  rcases infix_append_one hinf with h1 | ⟨⟨s, hs⟩, hy⟩
  · exact hn x y h1
  · have hyb : y = b := by injection hy
    rw [hyb]
    exact hd x ⟨s, hs⟩

theorem dashEnd_append_num (ms : List RMark) (b x : Int) :
    ¬ dashEnd (ms ++ [RMark.num b]) x := by
  rintro ⟨s, hs⟩
  have h2 : ms ++ [RMark.num b] = (s ++ [RMark.num x]) ++ [RMark.dash] := by
    rw [hs]; simp
  obtain ⟨_, hw⟩ := append_singleton_inj h2
  cases hw

theorem dashEnd_append_dash (ms : List RMark) (x : Int)
    (h : dashEnd (ms ++ [RMark.dash]) x) : ms.getLast? = some (RMark.num x) := by
  obtain ⟨s, hs⟩ := h
  have h2 : ms ++ [RMark.dash] = (s ++ [RMark.num x]) ++ [RMark.dash] := by
    rw [hs]; simp
  obtain ⟨hl, _⟩ := append_singleton_inj h2
  rw [hl]
  simp

theorem dashEnd_two (a x : Int) (s : List RMark)
    (h : dashEnd (s ++ [RMark.num a, RMark.dash]) x) : x = a := by
  have h2 : dashEnd ((s ++ [RMark.num a]) ++ [RMark.dash]) x := by
    simpa using h
  have h3 := dashEnd_append_dash _ _ h2
  simp at h3
  omega

/-- The head of a strictly ascending chain bounds every member. -/
theorem chain_head_le (c : Int) : ∀ (rest : List Int),
    List.Chain' (fun x y : Int => x < y) (c :: rest) → ∀ w ∈ c :: rest, c ≤ w := by
  intro rest
  induction rest generalizing c with
  | nil =>
    intro _ w hw
    simp at hw
    omega
  | cons d rest ih =>
    intro h w hw
    rw [List.chain'_cons] at h
    rcases List.mem_cons.mp hw with rfl | hw
    · exact le_refl w
    · have := ih d h.2 w hw
      omega

/-- The last element of a strictly ascending chain bounds every
member. -/
theorem chain_le_getLast (a : Int) : ∀ (rest : List Int),
    List.Chain' (fun x y : Int => x < y) (a :: rest) →
    ∀ w ∈ a :: rest, w ≤ (a :: rest).getLastD 0 := by
  intro rest
  induction rest generalizing a with
  | nil =>
    intro _ w hw
    simp at hw
    simp [hw]
  | cons b rest ih =>
    intro h w hw
    rw [List.chain'_cons] at h
    have hgl : ((a : Int) :: b :: rest).getLastD 0 = ((b : Int) :: rest).getLastD 0 := by
      simp [List.getLastD_cons]
    rw [hgl]
    rcases List.mem_cons.mp hw with rfl | hw
    · have hb := ih b h.2 b (List.mem_cons_self b rest)
      omega
    · exact ih b h.2 w hw

/-- Invariant run for the `range_list` loop: processing the windows of
a strictly ascending tail `u` (all of it bounded by the final value
`z`) keeps the marks free of short dashes, provided the accumulator is
already safe, any trailing `num x, dash` pair sits at least two below
the remaining values and `z`, and the accumulator ends with the first
component of the next window or with a dash. -/
theorem midFold_nsd (z : Int) :
    ∀ (u : List Int) (acc : List RMark),
      List.Chain' (fun x y : Int => x < y) u →
      (∀ w ∈ u, w ≤ z) →
      noShortDash acc →
      (∀ x, dashEnd acc x → (∀ w ∈ u.tail, x + 2 ≤ w) ∧ x + 2 ≤ z) →
      (u ≠ [] → acc.getLast? = some (RMark.num (u.headD 0)) ∨
        acc.getLast? = some RMark.dash) →
      noShortDash (midFold acc (windows3 u) ++ [RMark.num z]) := by
  intro u
  induction u with
  | nil =>
    intro acc _ _ hnsd hde _
    exact noShortDash_append_num acc z hnsd (fun x hx => (hde x hx).2)
  | cons a u' ih =>
    intro acc hch hbz hnsd hde hlast
    rcases u' with _ | ⟨b, u''⟩
    · exact noShortDash_append_num acc z hnsd (fun x hx => (hde x hx).2)
    rcases u'' with _ | ⟨c, rest⟩
    · exact noShortDash_append_num acc z hnsd (fun x hx => (hde x hx).2)
    have hch' : List.Chain' (fun x y : Int => x < y) (b :: c :: rest) := hch.tail
    have hbz' : ∀ w ∈ b :: c :: rest, w ≤ z :=
      fun w hw => hbz w (List.mem_cons_of_mem a hw)
    show noShortDash (midFold acc (windows3 (a :: b :: c :: rest)) ++ [RMark.num z])
    simp only [windows3, midFold]
    split_ifs with hcons hdash
    · refine ih (acc ++ [RMark.dash]) hch' hbz' (noShortDash_append_dash acc hnsd)
        ?_ (fun _ => Or.inr (by simp))
      intro x hx
      have hxl := dashEnd_append_dash acc x hx
      have hlast2 := hlast (by simp)
      rcases hlast2 with hl | hl
      · rw [hxl] at hl
        have hxa : x = a := by
          have := Option.some.inj hl
          injection this
        subst hxa
        have hcle : ∀ w ∈ c :: rest, c ≤ w := chain_head_le c rest hch'.tail
        have hcz : c ≤ z := hbz c (by simp)
        constructor
        · intro w hw
          have := hcle w hw
          omega
        · omega
      · rw [hxl] at hl
        cases Option.some.inj hl
    · refine ih acc hch' hbz' hnsd ?_ ?_
      · intro x hx
        obtain ⟨h1, h2⟩ := hde x hx
        refine ⟨fun w hw => h1 w (List.mem_cons_of_mem b hw), h2⟩
      · intro _
        right
        push_neg at hdash
        exact hdash
    · refine ih (acc ++ [RMark.num b]) hch' hbz' ?_ ?_ ?_
      · refine noShortDash_append_num acc b hnsd ?_
        intro x hx
        exact (hde x hx).1 b (by simp)
      · intro x hx
        exact absurd hx (dashEnd_append_num acc b x)
      · intro _
        left
        simp

theorem dashEnd_singleton (a x : Int) : ¬ dashEnd [RMark.num a] x := by
  rintro ⟨s, hs⟩
  have hlen := congrArg List.length hs
  simp at hlen

/-- The full `range_list` of a strictly ascending index list never
connects two values fewer than 2 apart with a dash. -/
theorem rangeMarks_nsd (v : List Int)
    (hch : List.Chain' (fun x y : Int => x < y) v) :
    noShortDash (rangeMarks v) := by
  cases v with
  | nil => exact noShortDash_small [] (by simp)
  | cons a rest =>
    unfold rangeMarks
    split_ifs with hlen
    · refine midFold_nsd ((a :: rest).getLastD 0) (a :: rest) [RMark.num a] hch
        (chain_le_getLast a rest hch) (noShortDash_small _ (by simp)) ?_ ?_
      · intro x hx
        exact absurd hx (dashEnd_singleton a x)
      · intro _
        left
        rfl
    · have hrest : rest = [] := by
        rcases rest with _ | ⟨r0, rest⟩
        · rfl
        · exact absurd (by simp : (a :: r0 :: rest).length > 1) hlen
      subst hrest
      exact noShortDash_small _ (by simp [windows3, midFold])

/-- A dash mark is only ever pushed for a window whose centre has both
neighbours at distance 1. -/
theorem midFold_dash_src : ∀ (ws : List (Int × Int × Int)) (acc : List RMark),
    RMark.dash ∈ midFold acc ws →
    RMark.dash ∈ acc ∨ ∃ w ∈ ws, w.2.1 - w.1 = 1 ∧ w.2.2 - w.2.1 = 1 := by
  intro ws
  induction ws with
  | nil => intro acc h; exact Or.inl h
  | cons w ws ih =>
    intro acc h
    obtain ⟨a, b, c⟩ := w
    simp only [midFold] at h
    split_ifs at h with hcons hdash
    · exact Or.inr ⟨(a, b, c), by simp, hcons⟩
    · exact Or.inr ⟨(a, b, c), by simp, hcons⟩
    · rcases ih _ h with hacc | ⟨w2, hw2, hc2⟩
      · rcases List.mem_append.mp hacc with h1 | h1
        · exact Or.inl h1
        · simp at h1
      · exact Or.inr ⟨w2, List.mem_cons_of_mem _ hw2, hc2⟩

/-- A dash in the `range_list` means some window of the sorted index
list is the middle of a run of three or more consecutive integers. -/
theorem rangeMarks_dash_src (v : List Int) (h : RMark.dash ∈ rangeMarks v) :
    ∃ w ∈ windows3 v, w.2.1 - w.1 = 1 ∧ w.2.2 - w.2.1 = 1 := by
  cases v with
  | nil => exact absurd h (by simp [rangeMarks])
  | cons a rest =>
    unfold rangeMarks at h
    split_ifs at h with hlen
    · rcases List.mem_append.mp h with h1 | h1
      · rcases midFold_dash_src _ _ h1 with hacc | hex
        · simp at hacc
        · exact hex
      · simp at h1
    · rcases midFold_dash_src _ _ h with hacc | hex
      · simp at hacc
      · exact hex

theorem insSorted_headD (x : Int) (l : List Int) :
    (insSorted x l).head? = some x ∨ (insSorted x l).head? = l.head? := by
  cases l with
  | nil => left; rfl
  | cons y ys =>
    unfold insSorted
    split_ifs with h1 h2
    · left; rfl
    · right; rfl
    · right; rfl

theorem chain_insSorted (x : Int) : ∀ l : List Int,
    List.Chain' (fun a b : Int => a < b) l →
    List.Chain' (fun a b : Int => a < b) (insSorted x l) := by
  intro l
  induction l generalizing x with
  | nil =>
    intro _
    simp [insSorted]
  | cons y ys ih =>
    intro h
    rw [List.chain'_cons'] at h
    obtain ⟨hhead, htail⟩ := h
    unfold insSorted
    split_ifs with h1 h2
    · rw [List.chain'_cons']
      refine ⟨?_, List.chain'_cons'.mpr ⟨hhead, htail⟩⟩
      intro b hb
      simp at hb
      omega
    · exact List.chain'_cons'.mpr ⟨hhead, htail⟩
    · rw [List.chain'_cons']
      refine ⟨?_, ih x htail⟩
      intro b hb
      rcases insSorted_headD x ys with hh | hh
      · rw [hh] at hb
        simp at hb
        omega
      · rw [hh] at hb
        exact hhead b hb

/-- The de-duplicated sort used inside `compressed_str` is strictly
ascending. -/
theorem sortedDedup_chain (l : List Int) :
    List.Chain' (fun a b : Int => a < b) (sortedDedup l) := by
  unfold sortedDedup
  induction l with
  | nil => simp
  | cons x xs ih =>
    simp only [List.foldr_cons]
    exact chain_insSorted x _ ih

/-- Claim C7: compression never collapses a two-element run into a
dash range.  Concretely, the index set `{5, 6}` renders as `"5,6"`;
and in general — the sorted de-duplicated index list being strictly
ascending — the `range_list` never joins two printed values fewer than
2 apart with a dash (so a rendered `x-y` spans at least three
integers), and a dash is pushed only for a window that is the middle
of a run of three or more consecutive integers. -/
theorem C7_two_run_not_dashed :
    ((CiscoRange.fromText "5-6" RType.str).bind CiscoRange.compressedStr = some "5,6") ∧
    (∀ l : List Int, List.Chain' (fun a b : Int => a < b) (sortedDedup l)) ∧
    (∀ v : List Int, List.Chain' (fun a b : Int => a < b) v →
      (∀ x y : Int,
        List.IsInfix [RMark.num x, RMark.dash, RMark.num y] (rangeMarks v) → x + 2 ≤ y) ∧
      (RMark.dash ∈ rangeMarks v →
        ∃ w ∈ windows3 v, w.2.1 - w.1 = 1 ∧ w.2.2 - w.2.1 = 1)) :=
  ⟨rfl, sortedDedup_chain,
   fun v hv => ⟨fun x y hinf => rangeMarks_nsd v hv x y hinf, rangeMarks_dash_src v⟩⟩

/-- Witness for C7 at the ascending list `[1, 2, 3]`, whose marks do
contain a dash. -/
theorem C7_witness :
    ∃ w ∈ windows3 [(1 : Int), 2, 3], w.2.1 - w.1 = 1 ∧ w.2.2 - w.2.1 = 1 :=
  (C7_two_run_not_dashed.2.2 [1, 2, 3]
      (List.chain'_cons.mpr ⟨by norm_num,
        List.chain'_cons.mpr ⟨by norm_num, List.chain'_singleton 3⟩⟩)).2
    (by decide)
